import Mathlib

/-!
Verification development for the GO-term annotation pipeline in
parse_humun_genes_go.py.  Python dictionaries are modelled as insertion
ordered association lists over String keys, Python sets as Finset String,
Python exceptions as an explicit error type, and the unbounded recursion of
find_parent_terms as structural recursion on an explicit stack budget
(recursionError marks an exhausted budget at every depth, i.e. divergence).
-/

/-- The observable Python exceptions of the script. -/
inductive PyErr : Type where
  | keyError (key : String)
  | indexError
  | recursionError
  deriving DecidableEq, Repr

/-- A Python dict with String keys, as an insertion ordered association list. -/
abbrev Dict (β : Type) : Type := List (String × β)

/-- Dictionary lookup, d[k]; first matching key wins (keys are unique by
construction, since dictSet never duplicates a key). -/
def dget {β : Type} : Dict β → String → Option β
  | [], _ => none
  | (k, v) :: rest, key => if key = k then some v else dget rest key

/-- Dictionary assignment d[k] = v: replace the value of an existing key in
place, otherwise append the new key at the end (Python insertion order). -/
def dset {β : Type} : Dict β → String → β → Dict β
  | [], key, val => [(key, val)]
  | (k, v) :: rest, key, val =>
      if key = k then (k, val) :: rest else (k, v) :: dset rest key val

/-- The keys of a dict in insertion order. -/
def keysOf {β : Type} (d : Dict β) : List String := d.map Prod.fst

/-- A dict has no duplicated keys. -/
def NoDupKeys {β : Type} (d : Dict β) : Prop := (keysOf d).Nodup

/-- The keys of a dict as a finite set. -/
def keysF {β : Type} (d : Dict β) : Finset String := (keysOf d).toFinset

/- ----------------------------------------------------------------------
find_parent_terms (parse_humun_genes_go.py lines 104 to 125)

    go_set = set()
    values = go_dict[go_id]
    for value in values:
        go_set.add(value)
        more_values = find_parent_terms(value, go_dict)
        for more_value in more_values:
            go_set.add(more_value)
    return go_set

The recursion carries no visited set and no depth bound; we embed it with an
explicit stack budget (fuel).  go_dict[go_id] on a missing key raises
KeyError; an exhausted budget is recursionError.  The Python for loop stops
at the first exception raised by a recursive call.
---------------------------------------------------------------------- -/

instance {ε α : Type} [DecidableEq ε] [DecidableEq α] : DecidableEq (Except ε α)
  | .error e, .error e' =>
      if h : e = e' then .isTrue (by rw [h]) else .isFalse (by simp [h])
  | .error _, .ok _ => .isFalse (fun h => Except.noConfusion h)
  | .ok _, .error _ => .isFalse (fun h => Except.noConfusion h)
  | .ok a, .ok a' =>
      if h : a = a' then .isTrue (by rw [h]) else .isFalse (by simp [h])

/-- The loop body of find_parent_terms over the direct parent list, with the
recursive call abstracted as f. -/
def fptValues (f : String → Except PyErr (Finset String)) :
    List String → Except PyErr (Finset String)
  | [] => .ok ∅
  | v :: rest =>
    match f v with
    | .error e => .error e
    | .ok more =>
      match fptValues f rest with
      | .error e => .error e
      | .ok acc => .ok (insert v (more ∪ acc))

/-- find_parent_terms with an explicit stack budget. -/
def findParentTerms (goDict : Dict (List String)) :
    Nat → String → Except PyErr (Finset String)
  | 0, _ => .error .recursionError
  | fuel + 1, goId =>
    match dget goDict goId with
    | none => .error (.keyError goId)
    | some values => fptValues (findParentTerms goDict fuel) values

/- ----------------------------------------------------------------------
String utilities.  re.split with a literal separator (the script only uses
the literal patterns \n, \t and \[Term\]) splits the text on every
non-overlapping occurrence of the separator, left to right, keeping empty
pieces.  We implement the scan by structural recursion on a length budget so
that concrete inputs reduce inside the kernel.
---------------------------------------------------------------------- -/

/-- takeAfter sep s = some rest iff s = sep ++ rest. -/
def takeAfter : List Char → List Char → Option (List Char)
  | [], s => some s
  | _ :: _, [] => none
  | p :: ps, c :: cs => if c = p then takeAfter ps cs else none

/-- Scan for the separator c0 :: ps; n is a length budget that is never
exhausted when it starts at the length of the text plus one. -/
def splitGo (c0 : Char) (ps : List Char) : Nat → List Char → List (List Char)
  | _, [] => [[]]
  | 0, s => [s]
  | n + 1, c :: cs =>
    match takeAfter (c0 :: ps) (c :: cs) with
    | some rest => [] :: splitGo c0 ps n rest
    | none =>
      match splitGo c0 ps n cs with
      | h :: t => (c :: h) :: t
      | [] => [[c]]

/-- re.split with a literal, non-empty separator pattern. -/
def pySplit (sep s : String) : List String :=
  match sep.data with
  | [] => [s]
  | c0 :: ps => (splitGo c0 ps (s.data.length + 1) s.data).map String.mk

/-- str.startswith for the model (only used with the separator "!"). -/
def pyStartsWith (s pat : String) : Bool := (takeAfter pat.data s.data).isSome

/- ----------------------------------------------------------------------
sorted(.) over a Python set (modelled as a Finset String): the unique
ascending enumeration of the set, computed by insertion sort on any list
representative (the result does not depend on the representative).
---------------------------------------------------------------------- -/

/-- sorted(s) for a set s of strings. -/
def sortedList (s : Finset String) : List String :=
  Quot.liftOn s.val (fun l => List.insertionSort (· ≤ ·) l)
    (fun _ _ hab =>
      List.eq_of_perm_of_sorted
        (((List.perm_insertionSort _ _).trans hab).trans
          (List.perm_insertionSort _ _).symm)
        (List.sorted_insertionSort _ _) (List.sorted_insertionSort _ _))

instance : IsTotal (String × Finset String) (fun a b => a.1 ≤ b.1) :=
  ⟨fun a b => le_total a.1 b.1⟩

instance : IsTrans (String × Finset String) (fun a b => a.1 ≤ b.1) :=
  ⟨fun _ _ _ h h' => le_trans h h'⟩

/-- sorted(d.items()) for the association dict: Python compares the tuples,
but keys are unique, so only the key part ever decides the order. -/
def sortItems (d : Dict (Finset String)) : Dict (Finset String) :=
  List.insertionSort (fun a b => a.1 ≤ b.1) d

/- ----------------------------------------------------------------------
parse_go_term (lines 85 to 101): findall of the two anchored patterns
    id_pattern   = ^id:\s+(GO:[0-9]+)\s+      (multiline)
    is_a_pattern = ^is_a:\s+(.*?) !           (multiline)
With re.M the anchor ^ matches at the start of the block and after every
newline, so we scan the block line by line; the newline that terminates a
line stands for the trailing \s of the id pattern.  (Degenerate matches in
which \s+ itself spans a newline are not modelled; the inputs settled here
do not exercise them.)
---------------------------------------------------------------------- -/

/-- Python \s on a single line. -/
def isWs (c : Char) : Bool :=
  c == ' ' || c == '\t' || c == '\n' || c == '\r' || c == '\x0b' || c == '\x0c'

/-- One multiline match of ^id:\s+(GO:[0-9]+)\s+ against a single line; the
capture is the GO identifier. -/
def matchIdLine (line : List Char) : Option String :=
  match takeAfter ['i', 'd', ':'] line with
  | none => none
  | some r1 =>
    match r1 with
    | [] => none
    | c :: _ =>
      if isWs c then
        match takeAfter ['G', 'O', ':'] (r1.dropWhile isWs) with
        | none => none
        | some r3 =>
          if r3.takeWhile Char.isDigit = [] then none
          else
            match r3.dropWhile Char.isDigit with
            | [] => some (String.mk ('G' :: 'O' :: ':' :: r3.takeWhile Char.isDigit))
            | c4 :: _ =>
              if isWs c4 then
                some (String.mk ('G' :: 'O' :: ':' :: r3.takeWhile Char.isDigit))
              else none
      else none

/-- The lazy capture (.*?) followed by the literal " !": the text up to the
first occurrence of " !", if any. -/
def upToBang : List Char → Option (List Char)
  | [] => none
  | ' ' :: '!' :: _ => some []
  | c :: cs => (upToBang cs).map (c :: ·)

/-- One multiline match of ^is_a:\s+(.*?) ! against a single line; the
capture is the parent GO identifier. -/
def matchIsALine (line : List Char) : Option String :=
  match takeAfter ['i', 's', '_', 'a', ':'] line with
  | none => none
  | some r1 =>
    match r1 with
    | [] => none
    | c :: _ =>
      if isWs c then (upToBang (r1.dropWhile isWs)).map String.mk
      else none

/-- parse_go_term: the list of id captures and the list of is_a captures of
one block. -/
def parseGoTerm (term : String) : List String × List String :=
  let lns := (pySplit "\n" term).map String.data
  (lns.filterMap matchIdLine, lns.filterMap matchIsALine)

/-- One iteration of the go_dict construction loop of main: the key is the
concatenation of all id captures (so the empty string when the block has no
id line) and the value is the is_a capture list. -/
def goStep (d : Dict (List String)) (rec : String) : Dict (List String) :=
  dset d (String.join (parseGoTerm rec).1) (parseGoTerm rec).2

/-- The go_dict construction of main (lines 180 to 186). -/
def buildGoDict (records : List String) : Dict (List String) :=
  records.foldl goStep []

/-- split_terms (lines 25 to 41); the file system is a map from path to
content, none meaning FileNotFoundError, which the function catches,
returning the empty list. -/
def splitTermsFile (fs : String → Option String) (filename : String) :
    List String :=
  match fs filename with
  | some content => pySplit "[Term]" content
  | none => []

/- ----------------------------------------------------------------------
map_protein_to_go (lines 44 to 82).
---------------------------------------------------------------------- -/

/-- The data-line filter: keep a line iff it is non-empty and does not start
with the comment marker. -/
def keepLine (l : String) : Bool := !(l == "") && !(pyStartsWith l "!")

/-- Column extraction of one data line: tab split, then columns 1 and 4;
a missing column raises IndexError. -/
def parseLine (l : String) : Except PyErr (String × String) :=
  let cols := pySplit "\t" l
  match cols[1]?, cols[4]? with
  | some p, some t => .ok (p, t)
  | _, _ => .error .indexError

/-- Column extraction over all data lines, stopping at the first failing
line, as the Python loop does. -/
def parseLines : List String → Except PyErr (List (String × String))
  | [] => .ok []
  | l :: rest =>
    match parseLine l with
    | .error e => .error e
    | .ok pr =>
      match parseLines rest with
      | .error e => .error e
      | .ok prs => .ok (pr :: prs)

/-- One iteration of the dict construction loop of map_protein_to_go: add
the term to the set of an existing protein, otherwise bind the protein to a
fresh singleton set. -/
def assocStep (d : Dict (Finset String)) (pr : String × String) :
    Dict (Finset String) :=
  dset d pr.1
    (match dget d pr.1 with
     | some s => insert pr.2 s
     | none => {pr.2})

/-- The dict construction of map_protein_to_go. -/
def buildAssoc (P : List (String × String)) : Dict (Finset String) :=
  P.foldl assocStep []

/-- The terms paired with protein p, in input order, duplicates kept. -/
def pTerms (P : List (String × String)) (p : String) : List String :=
  (P.filter (fun q => q.1 == p)).map Prod.snd

/-- The spec-side association mapping (section 4.2 of the spec): the set of
terms of the lines that share protein p, none when no line mentions p. -/
def pOpt (P : List (String × String)) (p : String) : Option (Finset String) :=
  if pTerms P p = [] then none else some (pTerms P p).toFinset

/-- The is_a edge relation of an ontology dict: u has direct parent v. -/
def Edge (goDict : Dict (List String)) (u v : String) : Prop :=
  ∃ ps, dget goDict u = some ps ∧ v ∈ ps

/-- Two ontology dicts that agree up to the order of each direct parent
list: same keys, and for every key the two parent lists are permutations of
one another. -/
def OptPerm : Option (List String) → Option (List String) → Prop
  | none, none => True
  | some l, some m => l.Perm m
  | _, _ => False

/-- map_protein_to_go on file content: split into lines, drop comment and
empty lines, extract the two columns of every line, union per protein. -/
def mapProteinToGo (content : String) : Except PyErr (Dict (Finset String)) :=
  (parseLines ((pySplit "\n" content).filter keepLine)).map buildAssoc

/-- map_protein_to_go including the file open: FileNotFoundError is caught
and turned into the empty dict. -/
def mapProteinToGoFile (fs : String → Option String) (filename : String) :
    Except PyErr (Dict (Finset String)) :=
  match fs filename with
  | some content => mapProteinToGo content
  | none => .ok []

/- ----------------------------------------------------------------------
The report loop of main (lines 189 to 204).  print(a, b, c) joins its
arguments with a space and appends a newline; print(x, end="") emits x
alone; print("\t", p, sep="\t") joins with tabs.  Output is the string
written to the output file; the second component records an exception that
escaped main (aborting the loop, with everything printed so far kept).
---------------------------------------------------------------------- -/

/-- The rows printed for one (term, sorted ancestor list) group: the first
ancestor row carries the term, later ancestors are continuation rows. -/
def termRows (goId : String) : List String → String
  | [] => ""
  | p :: rest =>
    "\t " ++ goId ++ " \t " ++ p ++ "\n" ++
      String.join (rest.map (fun q => "\t\t" ++ q ++ "\n"))

/-- The inner loop of main over the sorted GO terms of one protein. -/
def proteinRows (goDict : Dict (List String)) (fuel : Nat) :
    List String → String × Option PyErr
  | [] => ("", none)
  | t :: rest =>
    match findParentTerms goDict fuel t with
    | .error e => ("", some e)
    | .ok parents =>
      match proteinRows goDict fuel rest with
      | (o, e) => (termRows t (sortedList parents) ++ o, e)

/-- The outer loop of main over the sorted association items. -/
def reportRows (goDict : Dict (List String)) (fuel : Nat) :
    Dict (Finset String) → String × Option PyErr
  | [] => ("", none)
  | (protein, goIds) :: rest =>
    match proteinRows goDict fuel (sortedList goIds) with
    | (o, some e) => (protein ++ o, some e)
    | (o, none) =>
      match reportRows goDict fuel rest with
      | (o2, e2) => (protein ++ o ++ o2, e2)

/-- The report phase of main on association file content and a go_dict. -/
def runReport (assocContent : String) (goDict : Dict (List String))
    (fuel : Nat) : String × Option PyErr :=
  match mapProteinToGo assocContent with
  | .error e => ("", some e)
  | .ok d => reportRows goDict fuel (sortItems d)

/- ----------------------------------------------------------------------
Dictionary lemmas.
---------------------------------------------------------------------- -/

theorem dget_dset_self {β : Type} (d : Dict β) (k : String) (v : β) :
    dget (dset d k v) k = some v := by
  induction d with
  | nil => simp [dset, dget]
  | cons e rest ih =>
    by_cases h : k = e.1
    · simp [dset, dget, h]
    · simp [dset, dget, h, ih]

theorem dget_dset_ne {β : Type} (d : Dict β) (k : String) (v : β) (k' : String)
    (h : k' ≠ k) : dget (dset d k v) k' = dget d k' := by
  induction d with
  | nil => simp [dset, dget, h]
  | cons e rest ih =>
    by_cases hk : k = e.1
    · subst hk
      simp [dset, dget, h]
    · by_cases hk' : k' = e.1
      · simp [dset, dget, hk, hk']
      · simp [dset, dget, hk, hk', ih]

theorem dget_eq_none_iff {β : Type} (d : Dict β) (k : String) :
    dget d k = none ↔ k ∉ keysOf d := by
  induction d with
  | nil => simp [dget, keysOf]
  | cons e rest ih =>
    by_cases h : k = e.1
    · simp [dget, keysOf, h]
    · simp [dget, keysOf, h, ih]

theorem dget_isSome_iff {β : Type} (d : Dict β) (k : String) :
    (dget d k).isSome ↔ k ∈ keysOf d := by
  rw [Option.isSome_iff_ne_none, ne_eq, dget_eq_none_iff, not_not]

theorem dget_some_mem {β : Type} (d : Dict β) (k : String) (v : β)
    (h : dget d k = some v) : (k, v) ∈ d := by
  induction d with
  | nil => simp [dget] at h
  | cons e rest ih =>
    by_cases hk : k = e.1
    · subst hk
      simp [dget] at h
      simp [← h]
    · simp [dget, hk] at h
      exact List.mem_cons_of_mem _ (ih h)

theorem keysOf_cons {β : Type} (e : String × β) (rest : Dict β) :
    keysOf (e :: rest) = e.1 :: keysOf rest := by
  simp [keysOf]

theorem dget_of_mem_nodup {β : Type} (d : Dict β) (k : String) (v : β)
    (hd : NoDupKeys d) (h : (k, v) ∈ d) : dget d k = some v := by
  induction d with
  | nil => simp at h
  | cons e rest ih =>
    rw [NoDupKeys, keysOf_cons, List.nodup_cons] at hd
    rcases List.mem_cons.mp h with h | h
    · rw [← h]
      simp [dget]
    · have hk : k ≠ e.1 := by
        intro hk
        apply hd.1
        rw [← hk]
        exact List.mem_map_of_mem Prod.fst h
      simp [dget, hk, ih hd.2 h]

theorem mem_keysOf_dset {β : Type} (d : Dict β) (k : String) (v : β)
    (x : String) : x ∈ keysOf (dset d k v) ↔ x ∈ keysOf d ∨ x = k := by
  induction d with
  | nil => simp [dset, keysOf]
  | cons e rest ih =>
    by_cases h : k = e.1
    · subst h
      simp [dset, keysOf]
      tauto
    · simp [dset, keysOf, h] at *
      tauto

theorem nodup_dset {β : Type} (d : Dict β) (k : String) (v : β)
    (hd : NoDupKeys d) : NoDupKeys (dset d k v) := by
  induction d with
  | nil => simp [dset, NoDupKeys, keysOf]
  | cons e rest ih =>
    rw [NoDupKeys, keysOf_cons, List.nodup_cons] at hd
    by_cases h : k = e.1
    · have hds : dset (e :: rest) k v = (e.1, v) :: rest := by
        cases e
        simp [dset, h]
      rw [NoDupKeys, hds, keysOf_cons, List.nodup_cons]
      exact hd
    · have hds : dset (e :: rest) k v = e :: dset rest k v := by
        cases e
        simp [dset, h]
      rw [NoDupKeys, hds, keysOf_cons, List.nodup_cons]
      refine ⟨fun hb => ?_, ih hd.2⟩
      rcases (mem_keysOf_dset rest k v e.1).mp hb with hb | hb
      · exact hd.1 hb
      · exact h hb.symm

/- ----------------------------------------------------------------------
C1: the diamond scenario.
---------------------------------------------------------------------- -/

/-- C1: on the ontology in which GO:2 and GO:3 each have the single direct
parent GO:1 (itself a root), and GO:4 has the two direct parents GO:2 and
GO:3, find_parent_terms on GO:4 returns exactly the set
containing GO:1, GO:2, GO:3, and GO:1 occurs exactly once in the returned
set even though it is reachable along two distinct paths. -/
theorem findParentTerms_diamond :
    findParentTerms
      [("GO:1", []), ("GO:2", ["GO:1"]), ("GO:3", ["GO:1"]), ("GO:4", ["GO:2", "GO:3"])]
      5 "GO:4" = .ok ({"GO:1", "GO:2", "GO:3"} : Finset String) ∧
    Multiset.count "GO:1" ({"GO:1", "GO:2", "GO:3"} : Finset String).val = 1 := by
  decide

/- ----------------------------------------------------------------------
C2: cyclic ontology.
---------------------------------------------------------------------- -/

/-- C2 (the code violates the claim): on the two-term cycle
GO:1 is_a GO:2 is_a GO:1, find_parent_terms exhausts every stack budget,
at every starting term of the cycle: the recursion has no visited set, no
depth guard and no cycle report, so it never completes; the claim that
resolution terminates via detection or a guard fails on this input. -/
theorem findParentTerms_cycle_diverges (fuel : Nat) :
    findParentTerms [("GO:1", ["GO:2"]), ("GO:2", ["GO:1"])] fuel "GO:1" =
      .error .recursionError ∧
    findParentTerms [("GO:1", ["GO:2"]), ("GO:2", ["GO:1"])] fuel "GO:2" =
      .error .recursionError := by
  induction fuel with
  | zero => exact ⟨rfl, rfl⟩
  | succ n ih =>
    constructor
    · simp [findParentTerms, dget, fptValues, ih.2]
    · simp [findParentTerms, dget, fptValues, ih.1]

/- ----------------------------------------------------------------------
C3: association term missing from the ontology.
---------------------------------------------------------------------- -/

/-- C3 is false on the code: with ontology {GO:1 mapsto []} and one
association row annotating P1 with GO:999 (absent from the ontology), the
report loop raises KeyError("GO:999") right after printing the protein
column; no sentinel row is emitted and the exception escapes main. -/
theorem runReport_unknownTerm_cex :
    runReport "a\tP1\tx\ty\tGO:999\tz" [("GO:1", [])] 5 =
      ("P1", some (.keyError "GO:999")) := by
  decide

/-- C3 amended: when a protein is annotated with a term absent from the
ontology dict, the Report Builder does not emit a sentinel: the lookup
go_dict[go_id] raises KeyError naming the missing term, the exception
escapes, and processing of all remaining terms and proteins stops; only the
protein identifier of the current group has been printed. -/
theorem reportRows_unknownTerm (goDict : Dict (List String)) (fuel : Nat)
    (p t : String) (rest : Dict (Finset String)) (h : dget goDict t = none) :
    reportRows goDict (fuel + 1) ((p, ({t} : Finset String)) :: rest) =
      (p, some (.keyError t)) := by
  have hsort : sortedList ({t} : Finset String) = [t] := rfl
  simp [reportRows, proteinRows, findParentTerms, h, hsort]

/-- Witness for C3 amended. -/
theorem reportRows_unknownTerm_witness :
    reportRows [("GO:1", [])] 5 [("P1", ({"GO:999"} : Finset String))] =
      ("P1", some (.keyError "GO:999")) :=
  reportRows_unknownTerm [("GO:1", [])] 4 "P1" "GO:999" [] rfl

/- ----------------------------------------------------------------------
C6: missing input files.
---------------------------------------------------------------------- -/

/-- C6 is false on the code: on a missing file both parsers catch
FileNotFoundError and silently return an empty collection instead of
surfacing an error (exactly as their docstrings say). -/
theorem fileNotFound_swallowed_cex :
    splitTermsFile (fun _ => none) "missing.obo" = [] ∧
    mapProteinToGoFile (fun _ => none) "missing.gaf" = .ok [] :=
  ⟨rfl, rfl⟩

/-- C6 amended: for every missing input file path, split_terms returns the
empty list and map_protein_to_go returns the empty dict: the file-open
failure is caught inside the parsers and converted, not propagated. -/
theorem fileNotFound_swallowed (fs : String → Option String)
    (filename : String) (h : fs filename = none) :
    splitTermsFile fs filename = [] ∧
    mapProteinToGoFile fs filename = .ok [] := by
  simp [splitTermsFile, mapProteinToGoFile, h]

/-- Witness for C6 amended. -/
theorem fileNotFound_swallowed_witness :
    splitTermsFile (fun _ => none) "genes.obo" = [] ∧
    mapProteinToGoFile (fun _ => none) "genes.gaf" = .ok [] :=
  ⟨(fileNotFound_swallowed (fun _ => none) "genes.obo" rfl).1,
   (fileNotFound_swallowed (fun _ => none) "genes.gaf" rfl).2⟩

/- ----------------------------------------------------------------------
C10: terms whose ancestor set is empty.
---------------------------------------------------------------------- -/

/-- C10: a (protein, term) pair whose term maps to an empty parent list
resolves to the empty ancestor set, and the report emits no row at all for
the pair: the inner loop body never runs, so neither the term identifier
nor any placeholder is printed, and the protein identifier (printed with
end="") is left without a terminating newline, the following output being
appended directly after it. -/
theorem reportRows_emptyParents (goDict : Dict (List String)) (fuel : Nat)
    (p t : String) (rest : Dict (Finset String)) (h : dget goDict t = some []) :
    findParentTerms goDict (fuel + 1) t = .ok ∅ ∧
    reportRows goDict (fuel + 1) ((p, ({t} : Finset String)) :: rest) =
      (p ++ (reportRows goDict (fuel + 1) rest).1,
       (reportRows goDict (fuel + 1) rest).2) := by
  have hsort : sortedList ({t} : Finset String) = [t] := rfl
  have hempty : sortedList (∅ : Finset String) = [] := rfl
  constructor
  · simp [findParentTerms, h, fptValues]
  · cases hrr : reportRows goDict (fuel + 1) rest with
    | mk o2 e2 =>
      simp [reportRows, proteinRows, findParentTerms, h, fptValues, hsort,
        hempty, termRows, hrr]

/-- Witness for C10. -/
theorem reportRows_emptyParents_witness :
    findParentTerms [("GO:7", [])] 5 "GO:7" = .ok ∅ ∧
    reportRows [("GO:7", [])] 5 [("P1", ({"GO:7"} : Finset String))] =
      ("P1" ++ (reportRows [("GO:7", [])] 5 ([] : Dict (Finset String))).1,
       (reportRows [("GO:7", [])] 5 ([] : Dict (Finset String))).2) :=
  reportRows_emptyParents [("GO:7", [])] 4 "P1" "GO:7" [] rfl

/- ----------------------------------------------------------------------
C5: ontology blocks lacking an id line.
---------------------------------------------------------------------- -/

theorem data_append (a b : String) : (a ++ b).data = a.data ++ b.data := by
  cases a
  cases b
  rfl

theorem join_foldl_data (l : List String) (acc : String) :
    (l.foldl (fun r s => r ++ s) acc).data =
      acc.data ++ (l.map String.data).flatten := by
  induction l generalizing acc with
  | nil => simp
  | cons x xs ih => simp [ih, data_append]

theorem matchIdLine_shape (cs : List Char) (s : String)
    (h : matchIdLine cs = some s) : ∃ ds, s = String.mk ('G' :: 'O' :: ':' :: ds) := by
  unfold matchIdLine at h
  repeat' split at h
  all_goals first
    | exact ⟨_, (Option.some.inj h).symm⟩
    | simp at h

/-- A block with at least one id capture never produces the empty-string
dict key: each capture starts with GO and the key is their concatenation. -/
theorem goKey_ne_empty (r : String) (h : (parseGoTerm r).1 ≠ []) :
    String.join (parseGoTerm r).1 ≠ "" := by
  rcases hl : (parseGoTerm r).1 with _ | ⟨x, xs⟩
  · exact absurd hl h
  · have hx : ∃ ds, x = String.mk ('G' :: 'O' :: ':' :: ds) := by
      have hmem : x ∈ (parseGoTerm r).1 := by rw [hl]; exact List.mem_cons_self x xs
      unfold parseGoTerm at hmem
      simp only at hmem
      rcases List.mem_filterMap.mp hmem with ⟨cs, _, hcs⟩
      exact matchIdLine_shape cs x hcs
    intro hcontra
    have hdata := congrArg String.data hcontra
    rw [String.join, join_foldl_data] at hdata
    rcases hx with ⟨ds, hx⟩
    simp [hx] at hdata

/-- Records whose blocks all have an id capture never touch the entry at the
empty-string key. -/
theorem foldl_goStep_empty_key (post : List String) (d : Dict (List String))
    (hpost : ∀ r' ∈ post, (parseGoTerm r').1 ≠ []) :
    dget (post.foldl goStep d) "" = dget d "" := by
  induction post generalizing d with
  | nil => rfl
  | cons r' rs ih =>
    rw [List.foldl_cons, ih _ (fun x hx => hpost x (List.mem_cons_of_mem r' hx))]
    exact dget_dset_ne d _ _ ""
      (Ne.symm (goKey_ne_empty r' (hpost r' (List.mem_cons_self r' rs))))

/-- C5 is false on the code: in an ontology file whose final [Term] block
has an is_a line but no id line, the block is not skipped: "".join of the
empty id list fabricates the empty-string identifier, and the resulting
dict maps key "" to that block's parent list. -/
theorem buildGoDict_missingId_cex :
    dget (buildGoDict (pySplit "[Term]"
        "x\n[Term]\nid: GO:0000002\nis_a: GO:0000001 ! p\n[Term]\nis_a: GO:0000001 ! p\n"))
      "" = some ["GO:0000001"] := by
  decide

/-- C5 amended: a block lacking a parseable id line is not skipped; it is
entered into the Ontology map under the fabricated key "" ("".join of an
empty capture list), carrying its is_a list, and later id-less blocks
overwrite that entry (no exception escapes: the construction is total).
For every record list pre ++ r :: post in which r has no id capture and
every block after r has one, the resulting dict maps "" to the is_a list
of r. -/
theorem buildGoDict_missingId (pre : List String) (r : String)
    (post : List String) (hr : (parseGoTerm r).1 = [])
    (hpost : ∀ r' ∈ post, (parseGoTerm r').1 ≠ []) :
    dget (buildGoDict (pre ++ r :: post)) "" = some (parseGoTerm r).2 := by
  rw [buildGoDict, List.foldl_append, List.foldl_cons,
    foldl_goStep_empty_key post _ hpost]
  have hkey : String.join (parseGoTerm r).1 = "" := by rw [hr]; rfl
  rw [goStep, hkey]
  exact dget_dset_self _ "" _

/-- Witness for C5 amended. -/
theorem buildGoDict_missingId_witness :
    dget (buildGoDict
        (["x\n"] ++ "\nis_a: GO:0000001 ! p\n" ::
          ["\nid: GO:0000002\nis_a: GO:0000001 ! p\n"])) "" =
      some (parseGoTerm "\nis_a: GO:0000001 ! p\n").2 :=
  buildGoDict_missingId ["x\n"] "\nis_a: GO:0000001 ! p\n"
    ["\nid: GO:0000002\nis_a: GO:0000001 ! p\n"] (by decide)
    (by decide)

/- ----------------------------------------------------------------------
The association dict, characterized by the set of (protein, term) pairs:
dget (buildAssoc P) p is the set of all terms paired with p, or none when p
never occurs.  This is the spec-side description of section 4.2 (mapping
protein to set of GO term identifiers, built by unioning all lines sharing
the same protein identifier).
---------------------------------------------------------------------- -/

theorem pTerms_cons_self (q : String × String) (P : List (String × String)) :
    pTerms (q :: P) q.1 = q.2 :: pTerms P q.1 := by
  simp [pTerms, List.filter_cons]

theorem pTerms_cons_ne (q : String × String) (P : List (String × String))
    (p : String) (h : q.1 ≠ p) : pTerms (q :: P) p = pTerms P p := by
  simp [pTerms, List.filter_cons, h]

theorem foldl_assocStep_dget (P : List (String × String))
    (d : Dict (Finset String)) (p : String) :
    dget (P.foldl assocStep d) p =
      match dget d p with
      | some s => some (s ∪ (pTerms P p).toFinset)
      | none => pOpt P p := by
  induction P generalizing d with
  | nil => cases hdp : dget d p <;> simp [pTerms, pOpt, hdp]
  | cons q P ih =>
    rw [List.foldl_cons, ih]
    by_cases hp : q.1 = p
    · subst hp
      have h1 : dget (assocStep d q) q.1 =
          some (match dget d q.1 with
                | some s => insert q.2 s
                | none => {q.2}) := dget_dset_self _ _ _
      rw [h1]
      cases hdp : dget d q.1 with
      | some s =>
        simp only [hdp, pTerms_cons_self, List.toFinset_cons]
        rw [Finset.union_insert, Finset.insert_union]
      | none =>
        have hs : ({q.2} : Finset String) ∪ (pTerms P q.1).toFinset =
            insert q.2 (pTerms P q.1).toFinset := by
          ext x
          simp
        simp [hdp, pTerms_cons_self, pOpt, hs]
    · have h1 : dget (assocStep d q) p = dget d p :=
        dget_dset_ne _ _ _ p (fun he => hp he.symm)
      rw [h1, pOpt]
      cases hdp : dget d p <;>
        simp [pOpt, pTerms_cons_ne q P p hp, hdp]

theorem buildAssoc_dget (P : List (String × String)) (p : String) :
    dget (buildAssoc P) p = pOpt P p := by
  rw [buildAssoc, foldl_assocStep_dget]
  simp [dget]

/- ----------------------------------------------------------------------
C8: the association parser contract.
---------------------------------------------------------------------- -/

/-- C8: map_protein_to_go drops every line starting with the comment
marker and every empty line (keepLine), reads tab column 1 as the protein
and tab column 4 as the term of every remaining line (parseLine), and when
all those lines have both columns, returns the dict built from the pair
list, which maps every protein to the set union of the terms of its lines
(toFinset collapses duplicate pairs to a single set element). -/
theorem mapProteinToGo_spec (content : String) (P : List (String × String))
    (h : parseLines ((pySplit "\n" content).filter keepLine) = .ok P) :
    mapProteinToGo content = .ok (buildAssoc P) ∧
    ∀ p, dget (buildAssoc P) p = pOpt P p := by
  constructor
  · rw [mapProteinToGo, h]
    rfl
  · exact fun p => buildAssoc_dget P p

/-- Witness for C8: a file with a comment line, a duplicate annotation and
two proteins. -/
theorem mapProteinToGo_spec_witness :
    mapProteinToGo
        "! gaf-version: 2.1\ndb\tP2\tx\ty\tGO:0000001\tz\ndb\tP1\tx\ty\tGO:0000005\tz\ndb\tP1\tx\ty\tGO:0000005\tz\ndb\tP1\tx\ty\tGO:0000002\tz\n" =
      .ok (buildAssoc
        [("P2", "GO:0000001"), ("P1", "GO:0000005"), ("P1", "GO:0000005"),
         ("P1", "GO:0000002")]) ∧
    dget (buildAssoc
        [("P2", "GO:0000001"), ("P1", "GO:0000005"), ("P1", "GO:0000005"),
         ("P1", "GO:0000002")]) "P1" =
      pOpt [("P2", "GO:0000001"), ("P1", "GO:0000005"), ("P1", "GO:0000005"),
         ("P1", "GO:0000002")] "P1" := by
  have h := mapProteinToGo_spec
    "! gaf-version: 2.1\ndb\tP2\tx\ty\tGO:0000001\tz\ndb\tP1\tx\ty\tGO:0000005\tz\ndb\tP1\tx\ty\tGO:0000005\tz\ndb\tP1\tx\ty\tGO:0000002\tz\n"
    [("P2", "GO:0000001"), ("P1", "GO:0000005"), ("P1", "GO:0000005"),
     ("P1", "GO:0000002")] (by decide)
  exact ⟨h.1, h.2 "P1"⟩

/- ----------------------------------------------------------------------
C9: every value of the association dict is a non-empty set.
---------------------------------------------------------------------- -/

/-- C9: a protein key of the dict returned by map_protein_to_go is only
created together with a term, so every value of a successfully returned
dict is a non-empty set. -/
theorem mapProteinToGo_values_nonempty (content : String)
    (d : Dict (Finset String)) (p : String) (s : Finset String)
    (hc : mapProteinToGo content = .ok d) (hp : dget d p = some s) :
    s.Nonempty := by
  rw [mapProteinToGo] at hc
  cases hP : parseLines ((pySplit "\n" content).filter keepLine) with
  | error e => rw [hP] at hc; exact absurd hc (by simp [Except.map])
  | ok P =>
    rw [hP] at hc
    have hd : d = buildAssoc P := by
      simpa [Except.map] using hc.symm
    rw [hd, buildAssoc_dget, pOpt] at hp
    rcases hts : pTerms P p with _ | ⟨t, ts⟩
    · rw [hts] at hp
      simp at hp
    · rw [hts] at hp
      simp only [reduceCtorEq, reduceIte, Option.some.injEq] at hp
      exact ⟨t, by rw [← hp]; simp⟩

/-- Witness for C9. -/
theorem mapProteinToGo_values_nonempty_witness :
    ({"GO:0000005"} : Finset String).Nonempty :=
  mapProteinToGo_values_nonempty "db\tP1\tx\ty\tGO:0000005"
    [("P1", {"GO:0000005"})] "P1" {"GO:0000005"} (by decide) (by decide)

/- ----------------------------------------------------------------------
C7: acyclic, key-closed ontologies.  A successful find_parent_terms run
returns exactly the strict ancestors (one-or-more is_a steps); on an
acyclic dict whose parent identifiers are all keys, a budget of one more
than the number of keys always succeeds, the result never contains the
start term, and it only depends on the dict up to parent-list order.
---------------------------------------------------------------------- -/

theorem fptValues_ok_mem (goDict : Dict (List String)) (fuel : Nat)
    (IH : ∀ t s, findParentTerms goDict fuel t = .ok s →
      ∀ x, x ∈ s ↔ Relation.TransGen (Edge goDict) t x) :
    ∀ (l : List String) (s : Finset String),
      fptValues (findParentTerms goDict fuel) l = .ok s →
      ∀ x, x ∈ s ↔ ∃ v, v ∈ l ∧ (x = v ∨ Relation.TransGen (Edge goDict) v x) := by
  intro l
  induction l with
  | nil =>
    intro s h x
    rw [fptValues] at h
    rw [← Except.ok.inj h]
    simp
  | cons v rest ih =>
    intro s h x
    rw [fptValues] at h
    cases hfv : findParentTerms goDict fuel v with
    | error e => rw [hfv] at h; exact absurd h (by simp)
    | ok more =>
      rw [hfv] at h
      cases hrest : fptValues (findParentTerms goDict fuel) rest with
      | error e => rw [hrest] at h; exact absurd h (by simp)
      | ok acc =>
        rw [hrest] at h
        rw [← Except.ok.inj h]
        simp only [Finset.mem_insert, Finset.mem_union, IH v more hfv x,
          ih acc hrest x]
        constructor
        · rintro (rfl | htg | ⟨w, hw, hww⟩)
          · exact ⟨x, List.mem_cons_self x rest, Or.inl rfl⟩
          · exact ⟨v, List.mem_cons_self v rest, Or.inr htg⟩
          · exact ⟨w, List.mem_cons_of_mem v hw, hww⟩
        · rintro ⟨w, hw, hww⟩
          rcases List.mem_cons.mp hw with rfl | hw'
          · rcases hww with rfl | htg
            · exact Or.inl rfl
            · exact Or.inr (Or.inl htg)
          · exact Or.inr (Or.inr ⟨w, hw', hww⟩)

/-- A successful run of find_parent_terms returns exactly the terms
reachable from the start by one or more is_a steps. -/
theorem fpt_ok_mem (goDict : Dict (List String)) :
    ∀ (fuel : Nat) (t : String) (s : Finset String),
      findParentTerms goDict fuel t = .ok s →
      ∀ x, x ∈ s ↔ Relation.TransGen (Edge goDict) t x := by
  intro fuel
  induction fuel with
  | zero =>
    intro t s h
    exact absurd h (by simp [findParentTerms])
  | succ n IH =>
    intro t s h x
    rw [findParentTerms] at h
    cases hdg : dget goDict t with
    | none => rw [hdg] at h; exact absurd h (by simp)
    | some values =>
      rw [hdg] at h
      rw [fptValues_ok_mem goDict n IH values s h x]
      constructor
      · rintro ⟨v, hvmem, rfl | htg⟩
        · exact Relation.TransGen.single ⟨values, hdg, hvmem⟩
        · exact Relation.TransGen.head ⟨values, hdg, hvmem⟩ htg
      · intro htg
        rcases Relation.TransGen.head'_iff.mp htg with ⟨b, hedge, hrt⟩
        rcases hedge with ⟨qs, hps, hmem⟩
        rw [hdg] at hps
        rw [← Option.some.inj hps] at hmem
        rcases Relation.reflTransGen_iff_eq_or_transGen.mp hrt with heq | htg'
        · exact ⟨b, hmem, Or.inl heq⟩
        · exact ⟨b, hmem, Or.inr htg'⟩

theorem fptValues_ok_of_all (f : String → Except PyErr (Finset String))
    (l : List String) (h : ∀ v ∈ l, ∃ s, f v = .ok s) :
    ∃ s, fptValues f l = .ok s := by
  induction l with
  | nil => exact ⟨∅, rfl⟩
  | cons v rest ih =>
    rcases h v (List.mem_cons_self v rest) with ⟨sv, hsv⟩
    rcases ih (fun w hw => h w (List.mem_cons_of_mem v hw)) with ⟨sr, hsr⟩
    exact ⟨insert v (sv ∪ sr), by rw [fptValues, hsv, hsr]⟩

/-- On an acyclic, key-closed ontology, find_parent_terms succeeds whenever
the budget exceeds the number of keys minus the number of strict
descendants already on the call path (A collects the path). -/
theorem fpt_ok_of_fuel (goDict : Dict (List String))
    (hacyc : ∀ u, ¬ Relation.TransGen (Edge goDict) u u)
    (hclosed : ∀ u ps v, dget goDict u = some ps → v ∈ ps →
      (dget goDict v).isSome) :
    ∀ (fuel : Nat) (t : String) (A : Finset String),
      t ∈ keysF goDict → A ⊆ keysF goDict →
      (∀ a ∈ A, Relation.TransGen (Edge goDict) a t) →
      (keysF goDict).card < A.card + fuel →
      ∃ s, findParentTerms goDict fuel t = .ok s := by
  intro fuel
  induction fuel with
  | zero =>
    intro t A ht hA hpath hcard
    exfalso
    have htA : t ∉ A := fun hta => hacyc t (hpath t hta)
    have hss : A ⊂ keysF goDict := ⟨hA, fun hsub => htA (hsub ht)⟩
    have := Finset.card_lt_card hss
    omega
  | succ n ih =>
    intro t A ht hA hpath hcard
    have hts : (dget goDict t).isSome :=
      (dget_isSome_iff _ _).mpr (List.mem_toFinset.mp ht)
    rcases Option.isSome_iff_exists.mp hts with ⟨values, hvals⟩
    rw [findParentTerms, hvals]
    apply fptValues_ok_of_all
    intro v hv
    have hedge : Edge goDict t v := ⟨values, hvals, hv⟩
    have hvk : v ∈ keysF goDict := by
      have hvs := hclosed t values v hvals hv
      rw [dget_isSome_iff] at hvs
      exact List.mem_toFinset.mpr hvs
    have htA : t ∉ A := fun hta => hacyc t (hpath t hta)
    apply ih v (insert t A) hvk
    · intro x hx
      rcases Finset.mem_insert.mp hx with rfl | hx
      · exact ht
      · exact hA hx
    · intro a ha
      rcases Finset.mem_insert.mp ha with rfl | ha
      · exact Relation.TransGen.single hedge
      · exact Relation.TransGen.tail (hpath a ha) hedge
    · rw [Finset.card_insert_of_not_mem htA]
      omega

theorem edge_iff_of_optPerm (d d' : Dict (List String))
    (hp : ∀ u, OptPerm (dget d u) (dget d' u)) (u v : String) :
    Edge d u v ↔ Edge d' u v := by
  have h := hp u
  cases hdu : dget d u with
  | none =>
    cases hdu' : dget d' u with
    | none => simp [Edge, hdu, hdu']
    | some m => rw [hdu, hdu'] at h; exact absurd h (by simp [OptPerm])
  | some l =>
    cases hdu' : dget d' u with
    | none => rw [hdu, hdu'] at h; exact absurd h (by simp [OptPerm])
    | some m =>
      rw [hdu, hdu'] at h
      have hperm : l.Perm m := h
      constructor
      · rintro ⟨ps, hps, hmem⟩
        rw [hdu] at hps
        exact ⟨m, hdu', hperm.mem_iff.mp (Option.some.inj hps ▸ hmem)⟩
      · rintro ⟨ps, hps, hmem⟩
        rw [hdu'] at hps
        exact ⟨l, hdu, hperm.mem_iff.mpr (Option.some.inj hps ▸ hmem)⟩

/-- C7: on an acyclic ontology dict all of whose transitively reachable
parent identifiers are themselves keys, find_parent_terms succeeds on every
key t (a budget of the number of keys plus one is enough), the returned
ancestor set never contains t itself, and every successful run on any dict
that differs only in the order of the direct parent lists returns the same
set. -/
theorem findParentTerms_acyclic (goDict : Dict (List String))
    (hacyc : ∀ u, ¬ Relation.TransGen (Edge goDict) u u)
    (hclosed : ∀ u ps v, dget goDict u = some ps → v ∈ ps →
      (dget goDict v).isSome)
    (t : String) (ps : List String) (ht : dget goDict t = some ps) :
    ∃ s, findParentTerms goDict ((keysF goDict).card + 1) t = .ok s ∧
      t ∉ s ∧
      ∀ (d' : Dict (List String)) (fuel' : Nat) (s' : Finset String),
        (∀ u, OptPerm (dget goDict u) (dget d' u)) →
        findParentTerms d' fuel' t = .ok s' → s' = s := by
  have htk : t ∈ keysF goDict :=
    List.mem_toFinset.mpr ((dget_isSome_iff _ _).mp (by rw [ht]; rfl))
  rcases fpt_ok_of_fuel goDict hacyc hclosed ((keysF goDict).card + 1) t ∅
      htk (Finset.empty_subset _) (by simp) (by simp) with ⟨s, hs⟩
  refine ⟨s, hs, ?_, ?_⟩
  · intro hts
    exact hacyc t ((fpt_ok_mem goDict _ t s hs t).mp hts)
  · intro d' fuel' s' hperm hs'
    ext x
    rw [fpt_ok_mem goDict _ t s hs x, fpt_ok_mem d' fuel' t s' hs' x]
    constructor
    · exact Relation.TransGen.mono
        (fun a b hab => (edge_iff_of_optPerm goDict d' hperm a b).mpr hab)
    · exact Relation.TransGen.mono
        (fun a b hab => (edge_iff_of_optPerm goDict d' hperm a b).mp hab)

/-- Witness for C7, on the one-term ontology with the root GO:1. -/
theorem findParentTerms_acyclic_witness :
    ∃ s, findParentTerms [("GO:1", ([] : List String))]
        ((keysF [("GO:1", ([] : List String))]).card + 1) "GO:1" = .ok s ∧
      "GO:1" ∉ s := by
  have hnoedge : ∀ u v, ¬ Edge [("GO:1", ([] : List String))] u v := by
    rintro u v ⟨qs, hu, hv⟩
    by_cases h : u = "GO:1"
    · simp [dget, h] at hu
      rw [hu] at hv
      exact absurd hv (by simp)
    · simp [dget, h] at hu
  rcases findParentTerms_acyclic [("GO:1", ([] : List String))]
      (by
        intro u htg
        rcases Relation.TransGen.head'_iff.mp htg with ⟨c, he, _⟩
        exact hnoedge u c he)
      (by
        intro u qs v hu hv
        by_cases h : u = "GO:1"
        · simp [dget, h] at hu
          rw [hu] at hv
          exact absurd hv (by simp)
        · simp [dget, h] at hu)
      "GO:1" [] (by decide) with ⟨s, h1, h2, _⟩
  exact ⟨s, h1, h2⟩

/- ----------------------------------------------------------------------
C4: the report is invariant under permutation of the association lines.
---------------------------------------------------------------------- -/

theorem parseLine_error_eq (l : String) (e : PyErr)
    (h : parseLine l = .error e) : e = .indexError := by
  rw [parseLine] at h
  split at h
  · exact absurd h (by simp)
  · exact (Except.error.inj h).symm

theorem parseLines_error_eq (lines : List String) :
    ∀ e, parseLines lines = .error e → e = .indexError := by
  induction lines with
  | nil => intro e h; exact absurd h (by simp [parseLines])
  | cons l rest ih =>
    intro e h
    rw [parseLines] at h
    cases hpl : parseLine l with
    | error e' =>
      rw [hpl] at h
      rw [← Except.error.inj h]
      exact parseLine_error_eq l e' hpl
    | ok pr =>
      rw [hpl] at h
      cases hrest : parseLines rest with
      | error e' =>
        rw [hrest] at h
        rw [← Except.error.inj h]
        exact ih e' hrest
      | ok prs => rw [hrest] at h; exact absurd h (by simp)

theorem parseLines_isOk_iff (lines : List String) :
    (∃ P, parseLines lines = .ok P) ↔
      ∀ l ∈ lines, ∃ pr, parseLine l = .ok pr := by
  induction lines with
  | nil => simp [parseLines]
  | cons l rest ih =>
    constructor
    · rintro ⟨P, hP⟩
      rw [parseLines] at hP
      cases hpl : parseLine l with
      | error e => rw [hpl] at hP; exact absurd hP (by simp)
      | ok pr =>
        rw [hpl] at hP
        cases hrest : parseLines rest with
        | error e => rw [hrest] at hP; exact absurd hP (by simp)
        | ok prs =>
          intro x hx
          rcases List.mem_cons.mp hx with rfl | hx'
          · exact ⟨pr, hpl⟩
          · exact (ih.mp ⟨prs, hrest⟩) x hx'
    · intro hall
      rcases hall l (List.mem_cons_self l rest) with ⟨pr, hpl⟩
      rcases ih.mpr (fun x hx => hall x (List.mem_cons_of_mem l hx)) with
        ⟨prs, hrest⟩
      exact ⟨pr :: prs, by rw [parseLines, hpl, hrest]⟩

theorem parseLines_perm (l1 l2 : List String) (hp : l1.Perm l2) :
    ∀ P1 P2, parseLines l1 = .ok P1 → parseLines l2 = .ok P2 → P1.Perm P2 := by
  induction hp with
  | nil =>
    intro P1 P2 h1 h2
    rw [parseLines] at h1 h2
    rw [← Except.ok.inj h1, ← Except.ok.inj h2]
  | cons x hperm ih =>
    intro P1 P2 h1 h2
    rw [parseLines] at h1 h2
    cases hx : parseLine x with
    | error e => rw [hx] at h1; exact absurd h1 (by simp)
    | ok pr =>
      rw [hx] at h1 h2
      cases ht1 : parseLines _ with
      | error e => rw [ht1] at h1; exact absurd h1 (by simp)
      | ok Q1 =>
        rw [ht1] at h1
        cases ht2 : parseLines _ with
        | error e => rw [ht2] at h2; exact absurd h2 (by simp)
        | ok Q2 =>
          rw [ht2] at h2
          rw [← Except.ok.inj h1, ← Except.ok.inj h2]
          exact (ih Q1 Q2 ht1 ht2).cons pr
  | swap a b l =>
    intro P1 P2 h1 h2
    cases ha : parseLine a <;> cases hb : parseLine b <;>
      cases hl : parseLines l <;>
      simp only [parseLines, ha, hb, hl, Except.ok.injEq, reduceCtorEq] at h1 h2
    rw [← h1, ← h2]
    exact List.Perm.swap _ _ _
  | trans h12 h23 ih1 ih2 =>
    rename_i lA lB lC
    intro P1 P2 h1 h2
    have hmid : ∃ Pm, parseLines lB = .ok Pm := by
      rw [parseLines_isOk_iff]
      intro x hx
      exact (parseLines_isOk_iff _).mp ⟨P1, h1⟩ x (h12.mem_iff.mpr hx)
    rcases hmid with ⟨Pm, hm⟩
    exact (ih1 P1 Pm h1 hm).trans (ih2 Pm P2 hm h2)

theorem buildAssoc_nodup (P : List (String × String)) :
    NoDupKeys (buildAssoc P) := by
  rw [buildAssoc]
  have haux : ∀ (Q : List (String × String)) (d : Dict (Finset String)),
      NoDupKeys d → NoDupKeys (Q.foldl assocStep d) := by
    intro Q
    induction Q with
    | nil => exact fun d h => h
    | cons q Q ih =>
      intro d h
      rw [List.foldl_cons]
      exact ih _ (nodup_dset _ _ _ h)
  exact haux P [] (by simp [NoDupKeys, keysOf])

theorem map_fst_sorted (d : Dict (Finset String)) :
    List.Sorted (· ≤ ·) ((sortItems d).map Prod.fst) := by
  have hs : List.Sorted (fun a b => a.1 ≤ b.1) (sortItems d) :=
    List.sorted_insertionSort _ _
  exact List.Pairwise.map Prod.fst (fun _ _ h => h) hs

theorem sortItems_ext (d1 d2 : Dict (Finset String)) (h1 : NoDupKeys d1)
    (h2 : NoDupKeys d2) (hdg : ∀ k, dget d1 k = dget d2 k) :
    sortItems d1 = sortItems d2 := by
  have hp1 : (sortItems d1).Perm d1 := List.perm_insertionSort _ _
  have hp2 : (sortItems d2).Perm d2 := List.perm_insertionSort _ _
  have hk1 : ((sortItems d1).map Prod.fst).Perm (keysOf d1) := hp1.map _
  have hk2 : ((sortItems d2).map Prod.fst).Perm (keysOf d2) := hp2.map _
  have hnd1 : ((sortItems d1).map Prod.fst).Nodup := hk1.nodup_iff.mpr h1
  have hnd2 : ((sortItems d2).map Prod.fst).Nodup := hk2.nodup_iff.mpr h2
  have hmemk : ∀ k, k ∈ (sortItems d1).map Prod.fst ↔
      k ∈ (sortItems d2).map Prod.fst := by
    intro k
    rw [hk1.mem_iff, hk2.mem_iff, ← dget_isSome_iff, ← dget_isSome_iff, hdg k]
  have hpk : ((sortItems d1).map Prod.fst).Perm ((sortItems d2).map Prod.fst) :=
    (List.perm_ext_iff_of_nodup hnd1 hnd2).mpr hmemk
  have hkeq : (sortItems d1).map Prod.fst = (sortItems d2).map Prod.fst :=
    List.eq_of_perm_of_sorted hpk (map_fst_sorted d1) (map_fst_sorted d2)
  have hlen : (sortItems d1).length = (sortItems d2).length := by
    have hml := congrArg List.length hkeq
    simpa using hml
  apply List.ext_getElem hlen
  intro i hi1 hi2
  have hfst : (sortItems d1)[i].1 = (sortItems d2)[i].1 := by
    have hij := congrArg (fun l => l[i]?) hkeq
    simp only [List.getElem?_map, List.getElem?_eq_getElem hi1,
      List.getElem?_eq_getElem hi2, Option.map_some'] at hij
    exact Option.some.inj hij
  have hmem1 : (sortItems d1)[i] ∈ d1 :=
    hp1.mem_iff.mp (List.getElem_mem hi1)
  have hmem2 : (sortItems d2)[i] ∈ d2 :=
    hp2.mem_iff.mp (List.getElem_mem hi2)
  have hsnd1 : dget d1 (sortItems d1)[i].1 = some (sortItems d1)[i].2 :=
    dget_of_mem_nodup d1 _ _ h1 (by rw [Prod.mk.eta]; exact hmem1)
  have hsnd2 : dget d2 (sortItems d2)[i].1 = some (sortItems d2)[i].2 :=
    dget_of_mem_nodup d2 _ _ h2 (by rw [Prod.mk.eta]; exact hmem2)
  rw [hdg, hfst, hsnd2] at hsnd1
  exact Prod.ext hfst (Option.some.inj hsnd1).symm

theorem pOpt_perm (P1 P2 : List (String × String)) (hp : P1.Perm P2)
    (p : String) : pOpt P1 p = pOpt P2 p := by
  have hperm : (pTerms P1 p).Perm (pTerms P2 p) := (hp.filter _).map _
  have hne : (pTerms P1 p = []) ↔ (pTerms P2 p = []) := by
    rw [← List.length_eq_zero, ← List.length_eq_zero, hperm.length_eq]
  rw [pOpt, pOpt]
  by_cases h : pTerms P1 p = []
  · rw [if_pos h, if_pos (hne.mp h)]
  · rw [if_neg h, if_neg (fun hh => h (hne.mpr hh)),
      List.toFinset_eq_of_perm _ _ hperm]

/-- C4: two association inputs whose line lists are permutations of one
another (and a fortiori: two runs on identical input) produce the same
report against the same ontology dict, character for character: every
protein, term set and ancestor list is sorted before emission, the dict is
keyed by the set of (protein, term) pairs, and even the failure behaviour
(an IndexError on a short line) is permutation invariant. -/
theorem runReport_permInvariant (c1 c2 : String) (goDict : Dict (List String))
    (fuel : Nat) (hperm : (pySplit "\n" c1).Perm (pySplit "\n" c2)) :
    runReport c1 goDict fuel = runReport c2 goDict fuel := by
  have hfilter : ((pySplit "\n" c1).filter keepLine).Perm
      ((pySplit "\n" c2).filter keepLine) := hperm.filter _
  simp only [runReport, mapProteinToGo]
  cases hP1 : parseLines ((pySplit "\n" c1).filter keepLine) with
  | error e1 =>
    cases hP2 : parseLines ((pySplit "\n" c2).filter keepLine) with
    | error e2 =>
      rw [parseLines_error_eq _ _ hP1, parseLines_error_eq _ _ hP2]
    | ok P2 =>
      exfalso
      rcases (parseLines_isOk_iff _).mpr
          (fun l hl => (parseLines_isOk_iff _).mp ⟨P2, hP2⟩ l
            (hfilter.mem_iff.mp hl)) with ⟨P, hPc⟩
      rw [hP1] at hPc
      exact absurd hPc (by simp)
  | ok P1 =>
    cases hP2 : parseLines ((pySplit "\n" c2).filter keepLine) with
    | error e2 =>
      exfalso
      rcases (parseLines_isOk_iff _).mpr
          (fun l hl => (parseLines_isOk_iff _).mp ⟨P1, hP1⟩ l
            (hfilter.mem_iff.mpr hl)) with ⟨P, hPc⟩
      rw [hP2] at hPc
      exact absurd hPc (by simp)
    | ok P2 =>
      have hPp : P1.Perm P2 := parseLines_perm _ _ hfilter P1 P2 hP1 hP2
      have hsi : sortItems (buildAssoc P1) = sortItems (buildAssoc P2) :=
        sortItems_ext _ _ (buildAssoc_nodup P1) (buildAssoc_nodup P2)
          (fun k => by
            rw [buildAssoc_dget, buildAssoc_dget, pOpt_perm P1 P2 hPp k])
      simp only [Except.map, hsi]

/-- Witness for C4: the same two annotation rows in both orders. -/
theorem runReport_permInvariant_witness :
    runReport "a\tP1\tx\ty\tGO:2\tz\na\tP2\tx\ty\tGO:3\tz"
        [("GO:1", []), ("GO:2", ["GO:1"]), ("GO:3", ["GO:1"])] 5 =
      runReport "a\tP2\tx\ty\tGO:3\tz\na\tP1\tx\ty\tGO:2\tz"
        [("GO:1", []), ("GO:2", ["GO:1"]), ("GO:3", ["GO:1"])] 5 :=
  runReport_permInvariant "a\tP1\tx\ty\tGO:2\tz\na\tP2\tx\ty\tGO:3\tz"
    "a\tP2\tx\ty\tGO:3\tz\na\tP1\tx\ty\tGO:2\tz"
    [("GO:1", []), ("GO:2", ["GO:1"]), ("GO:3", ["GO:1"])] 5 (by decide)
